import Mathlib

/-!
Verification of the `casched` scheduler library (`src/lib.rs`).

Shallow embedding conventions:
* `Instant` (the payload of `std::time::Instant`) is a `Nat` reading of the
  monotonic clock; `Duration` is a non-negative `Nat` of the same unit.
  `Instant::duration_since` saturates at zero, which is `Nat` subtraction.
* The opaque boxed callable `f : Box<dyn FnMut()>` of a `Task` is represented
  by a numeric identity `id`, so that executions can be observed in a trace.
* `std::collections::BinaryHeap` is external library code; it is modelled by
  its documented contract as a list kept sorted with the `Ord`-greatest
  element first (`heapPush` is an ordered insert, `heapPop`/`heapPeek` take
  the head).  Tie order among `Ord`-equal elements is unspecified in the
  library and fixed arbitrarily here.
* `Scheduler::run` is modelled as a step function on a `RunState` carrying
  the current clock, the heap and the trace of executions.  `thread::sleep`
  advances the clock by exactly the requested duration; running a callable
  advances the clock by an amount given by an oracle `exec` (indexed by the
  number of executions so far), which models wall time spent in `f`.
-/

namespace Casched

/-- Model of `Stbi`, the repository's `Instant` wrapper whose `Ord` is reversed. -/
structure Stbi where
  instant : Nat
deriving Repr, DecidableEq

/-- Model of `Stbi::since`: `self.0.duration_since(earlier.0)`, the elapsed duration
from `earlier` to `self`, saturating at zero (`Nat` subtraction). -/
def Stbi.since (self earlier : Stbi) : Nat :=
  self.instant - earlier.instant

/-- Model of `impl Ord for Stbi`: `(other.0).cmp(&self.0)` — arguments reversed. -/
def Stbi.cmp (self other : Stbi) : Ordering :=
  compare other.instant self.instant

/-- Model of `impl Add<Duration> for Stbi`. -/
def Stbi.add (self : Stbi) (rhs : Nat) : Stbi :=
  ⟨self.instant + rhs⟩

/-- The `Schedule` enum. -/
inductive Schedule where
  | Once : Option Nat → Schedule
  | Every : Nat → Schedule
  | Counted : Nat → Nat → Schedule
deriving Repr, DecidableEq

/-- Model of `Schedule::reschedule`: `Every(_) => Some(self)`;
`Counted { count, .. } if *count > 1` decrements `count`; `_ => None`. -/
def Schedule.reschedule : Schedule → Option Schedule
  | .Every d => some (.Every d)
  | .Counted count interval =>
      if count > 1 then some (.Counted (count - 1) interval) else none
  | .Once _ => none

/-- Model of `Schedule::as_duration`: `Once(d) => d.unwrap_or(ZERO)`; `Every(d) => d`;
`Counted { interval, .. } => interval`. -/
def Schedule.as_duration : Schedule → Nat
  | .Once duration => duration.getD 0
  | .Every d => d
  | .Counted _ interval => interval

/-- Does the schedule use the `Every` variant? -/
def Schedule.isEvery : Schedule → Bool
  | .Every _ => true
  | _ => false

/-- A `Task`: a `Schedule` plus a boxed callable, the latter modelled by an
opaque numeric identity. -/
structure Task where
  schedule : Schedule
  id : Nat
deriving Repr, DecidableEq

/-- A `ScheduledTask`: a due time `at` plus the `Task`. -/
structure ScheduledTask where
  dueAt : Stbi
  task : Task
deriving Repr, DecidableEq

/-- Model of `ScheduledTask::reschedule(stbi)`: reschedule the inner `Schedule`; on
`None` drop everything; otherwise store the new schedule and set
`at = stbi + new_schedule.as_duration()`. -/
def ScheduledTask.reschedule (self : ScheduledTask) (stbi : Stbi) :
    Option ScheduledTask :=
  match self.task.schedule.reschedule with
  | none => none
  | some schedule =>
      some { dueAt := stbi.add schedule.as_duration
             task := { schedule := schedule, id := self.task.id } }

/-- Model of `impl Ord for ScheduledTask`: `self.at.cmp(&other.at)` — compares due
times only, through `Stbi`'s reversed order. -/
def ScheduledTask.cmp (self other : ScheduledTask) : Ordering :=
  self.dueAt.cmp other.dueAt

/-- Model of `BinaryHeap::push` on the sorted-list representation: insert
the new element before the first strictly `Ord`-smaller element, keeping the
`Ord`-greatest element at the head. -/
def heapPush : List ScheduledTask → ScheduledTask → List ScheduledTask
  | [], x => [x]
  | y :: ys, x =>
      if x.cmp y = .gt then x :: y :: ys else y :: heapPush ys x

/-- Model of `BinaryHeap::peek`: the `Ord`-greatest element, at the head. -/
def heapPeek (h : List ScheduledTask) : Option ScheduledTask :=
  h.head?

/-- Model of `BinaryHeap::pop`: remove and return the `Ord`-greatest element. -/
def heapPop (h : List ScheduledTask) :
    Option (ScheduledTask × List ScheduledTask) :=
  match h with
  | [] => none
  | x :: xs => some (x, xs)

/-- The `Scheduler`: owns the priority queue. -/
structure Scheduler where
  schedule : List ScheduledTask

/-- Model of `Scheduler::with_tasks`: capture one baseline `now`, give every task the
due time `now + task.schedule.as_duration()` and push it. -/
def Scheduler.with_tasks (now : Stbi) (tasks : List Task) : Scheduler :=
  { schedule :=
      tasks.foldl
        (fun schedule task =>
          heapPush schedule ⟨now.add task.schedule.as_duration, task⟩)
        [] }

/-- One observed execution: which callable ran, the due time of the entry
that fired, and the clock reading `now` at which the loop fired it. -/
structure Event where
  id : Nat
  due : Nat
  fireTime : Nat
deriving Repr, DecidableEq

/-- The state of `Scheduler::run` between loop iterations. -/
structure RunState where
  time : Nat
  heap : List ScheduledTask
  trace : List Event
deriving Repr, DecidableEq

/-- Result of one iteration of the `run` loop: the loop `return`ed, the
`expect("Peek returned value")` panicked, or the loop continues. -/
inductive StepRes where
  | done
  | panicked
  | next : RunState → StepRes
deriving Repr, DecidableEq

/-- One iteration of the loop in `Scheduler::run`.  `now` is sampled at the
top; if `peek` is empty the loop returns; `diff = top.at.since(now)`; if
`diff` is zero the entry is popped, its callable runs (taking
`exec (number of executions so far)` wall time), and it is rescheduled with
reference time `now` (the reading captured before the invocation); otherwise
the thread sleeps for exactly `diff`. -/
def step (exec : Nat → Nat) (s : RunState) : StepRes :=
  match heapPeek s.heap with
  | none => .done
  | some top =>
      let now : Stbi := ⟨s.time⟩
      let diff := top.dueAt.since now
      if diff = 0 then
        match heapPop s.heap with
        | none => .panicked
        | some (task, rest) =>
            let fired : Event := ⟨task.task.id, task.dueAt.instant, s.time⟩
            let heap2 :=
              match task.reschedule now with
              | some t => heapPush rest t
              | none => rest
            .next ⟨s.time + exec s.trace.length, heap2, s.trace ++ [fired]⟩
      else
        .next ⟨s.time + diff, s.heap, s.trace⟩

/-- Iterate `step` for at most `fuel` iterations, stopping early when the
loop returns (or would panic). -/
def run (exec : Nat → Nat) : Nat → RunState → RunState
  | 0, s => s
  | fuel + 1, s =>
      match step exec s with
      | .next s2 => run exec fuel s2
      | _ => s

/-- The state in which `Scheduler::run` begins: the constructed heap, a
starting clock reading, and an empty trace. -/
def Scheduler.initState (self : Scheduler) (start : Nat) : RunState :=
  ⟨start, self.schedule, []⟩

/-- Iterating `Schedule::reschedule` `n` times from a starting schedule. -/
def schedIter (s : Schedule) : Nat → Option Schedule
  | 0 => some s
  | n + 1 => (schedIter s n).bind Schedule.reschedule

/-- The heap invariant maintained on the sorted-list model: due times are
non-decreasing from the head on. -/
@[reducible] def heapOrdered (h : List ScheduledTask) : Prop :=
  List.Pairwise (fun a b => a.dueAt.instant ≤ b.dueAt.instant) h

/-! ### Helper lemmas about the comparators and the heap -/

lemma stbi_cmp_gt_iff (a b : Stbi) :
    Stbi.cmp a b = .gt ↔ a.instant < b.instant := by
  simp [Stbi.cmp, Nat.compare_eq_gt]

lemma stbi_cmp_lt_iff (a b : Stbi) :
    Stbi.cmp a b = .lt ↔ b.instant < a.instant := by
  simp [Stbi.cmp, Nat.compare_eq_lt]

lemma task_cmp_gt_iff (a b : ScheduledTask) :
    ScheduledTask.cmp a b = .gt ↔ a.dueAt.instant < b.dueAt.instant :=
  stbi_cmp_gt_iff a.dueAt b.dueAt

lemma mem_heapPush {h : List ScheduledTask} {x y : ScheduledTask} :
    y ∈ heapPush h x ↔ y = x ∨ y ∈ h := by
  induction h with
  | nil => simp [heapPush]
  | cons z zs ih =>
      by_cases hc : x.cmp z = .gt
      · simp [heapPush, hc]
      · simp only [heapPush, if_neg hc, List.mem_cons, ih]
        tauto

lemma heapOrdered_heapPush {h : List ScheduledTask} {x : ScheduledTask}
    (hh : heapOrdered h) : heapOrdered (heapPush h x) := by
  induction h with
  | nil => simp [heapOrdered, heapPush]
  | cons z zs ih =>
      rw [heapOrdered, List.pairwise_cons] at hh
      obtain ⟨hz, hzs⟩ := hh
      by_cases hc : x.cmp z = .gt
      · have hxz : x.dueAt.instant < z.dueAt.instant :=
          (task_cmp_gt_iff x z).1 hc
        rw [heapOrdered, heapPush, if_pos hc, List.pairwise_cons]
        refine ⟨?_, List.pairwise_cons.2 ⟨hz, hzs⟩⟩
        intro y hy
        rcases List.mem_cons.1 hy with hy | hy
        · exact le_of_lt (hy ▸ hxz)
        · exact le_of_lt (lt_of_lt_of_le hxz (hz y hy))
      · have hzx : z.dueAt.instant ≤ x.dueAt.instant := by
          have := (task_cmp_gt_iff x z).not.1 hc
          omega
        rw [heapOrdered, heapPush, if_neg hc, List.pairwise_cons]
        refine ⟨?_, ih hzs⟩
        intro y hy
        rcases mem_heapPush.1 hy with hy | hy
        · exact hy ▸ hzx
        · exact hz y hy

lemma heapOrdered_head_min {x : ScheduledTask} {xs : List ScheduledTask}
    (h : heapOrdered (x :: xs)) :
    ∀ y ∈ x :: xs, x.dueAt.instant ≤ y.dueAt.instant := by
  rw [heapOrdered, List.pairwise_cons] at h
  intro y hy
  rcases List.mem_cons.1 hy with hy | hy
  · exact hy ▸ le_refl _
  · exact h.1 y hy

/-! ### Helper lemmas about `step` and `run` -/

lemma step_empty (exec : Nat → Nat) (s : RunState) (h : s.heap = []) :
    step exec s = .done := by
  simp [step, heapPeek, h]

lemma step_fire (exec : Nat → Nat) (time : Nat) (x : ScheduledTask)
    (rest : List ScheduledTask) (tr : List Event)
    (h : x.dueAt.instant ≤ time) :
    step exec ⟨time, x :: rest, tr⟩ =
      .next ⟨time + exec tr.length,
             (match x.reschedule ⟨time⟩ with
              | some t => heapPush rest t
              | none => rest),
             tr ++ [⟨x.task.id, x.dueAt.instant, time⟩]⟩ := by
  have hz : x.dueAt.since ⟨time⟩ = 0 := Nat.sub_eq_zero_of_le h
  simp [step, heapPeek, heapPop, hz]

lemma step_sleep (exec : Nat → Nat) (time : Nat) (x : ScheduledTask)
    (rest : List ScheduledTask) (tr : List Event)
    (h : time < x.dueAt.instant) :
    step exec ⟨time, x :: rest, tr⟩ =
      .next ⟨x.dueAt.instant, x :: rest, tr⟩ := by
  have hz : x.dueAt.since ⟨time⟩ ≠ 0 := by
    simp [Stbi.since]; omega
  have ht : time + x.dueAt.since ⟨time⟩ = x.dueAt.instant := by
    simp [Stbi.since]; omega
  simp [step, heapPeek, hz, ht]

lemma run_next {exec : Nat → Nat} {s s2 : RunState} (fuel : Nat)
    (h : step exec s = .next s2) :
    run exec (fuel + 1) s = run exec fuel s2 := by
  simp [run, h]

lemma run_done {exec : Nat → Nat} {s : RunState} (fuel : Nat)
    (h : step exec s = .done) :
    run exec fuel s = s := by
  cases fuel with
  | zero => rfl
  | succ n => simp [run, h]

lemma step_nonempty_next (exec : Nat → Nat) (s : RunState)
    (h : s.heap ≠ []) : ∃ s2, step exec s = .next s2 := by
  obtain ⟨time, heap, tr⟩ := s
  cases heap with
  | nil => simp at h
  | cons x rest =>
      by_cases hle : x.dueAt.instant ≤ time
      · exact ⟨_, step_fire exec time x rest tr hle⟩
      · exact ⟨_, step_sleep exec time x rest tr (by omega)⟩

lemma step_done_iff (exec : Nat → Nat) (s : RunState) :
    step exec s = .done ↔ s.heap = [] := by
  constructor
  · intro h
    by_contra hne
    obtain ⟨s2, h2⟩ := step_nonempty_next exec s hne
    rw [h2] at h
    exact StepRes.noConfusion h
  · exact step_empty exec s

lemma step_ne_panicked (exec : Nat → Nat) (s : RunState) :
    step exec s ≠ .panicked := by
  by_cases hne : s.heap = []
  · rw [step_empty exec s hne]
    exact StepRes.noConfusion
  · obtain ⟨s2, h2⟩ := step_nonempty_next exec s hne
    rw [h2]
    exact StepRes.noConfusion

lemma heapOrdered_cons {x : ScheduledTask} {xs : List ScheduledTask} :
    heapOrdered (x :: xs) ↔
      (∀ y ∈ xs, x.dueAt.instant ≤ y.dueAt.instant) ∧ heapOrdered xs := by
  simp [heapOrdered, List.pairwise_cons]

lemma heapOrdered_with_tasks (now : Stbi) (tasks : List Task) :
    heapOrdered (Scheduler.with_tasks now tasks).schedule := by
  suffices h : ∀ acc : List ScheduledTask, heapOrdered acc →
      heapOrdered (tasks.foldl
        (fun schedule task =>
          heapPush schedule ⟨now.add task.schedule.as_duration, task⟩) acc) by
    exact h [] (by simp [heapOrdered])
  induction tasks with
  | nil => intro acc hacc; exact hacc
  | cons t ts ih =>
      intro acc hacc
      exact ih _ (heapOrdered_heapPush hacc)

lemma heapOrdered_step {exec : Nat → Nat} {s s2 : RunState}
    (hs : heapOrdered s.heap) (h : step exec s = .next s2) :
    heapOrdered s2.heap := by
  obtain ⟨time, heap, tr⟩ := s
  cases heap with
  | nil =>
      rw [step_empty exec _ rfl] at h
      exact StepRes.noConfusion h
  | cons x rest =>
      have hrest : heapOrdered rest := (heapOrdered_cons.1 hs).2
      by_cases hle : x.dueAt.instant ≤ time
      · rw [step_fire exec time x rest tr hle] at h
        cases h
        cases hr : x.reschedule ⟨time⟩ with
        | none => simpa [hr] using hrest
        | some t => simpa [hr] using heapOrdered_heapPush hrest
      · rw [step_sleep exec time x rest tr (by omega)] at h
        cases h
        exact hs

lemma heapOrdered_run {exec : Nat → Nat} (fuel : Nat) :
    ∀ s : RunState, heapOrdered s.heap →
      heapOrdered (run exec fuel s).heap := by
  induction fuel with
  | zero => intro s hs; exact hs
  | succ n ih =>
      intro s hs
      cases h : step exec s with
      | next s2 => rw [run_next n h]; exact ih s2 (heapOrdered_step hs h)
      | done => rw [run_done (n + 1) h]; exact hs
      | panicked => exact absurd h (step_ne_panicked exec s)

lemma isEvery_iff {s : Schedule} : s.isEvery = true ↔ ∃ d, s = .Every d := by
  cases s <;> simp [Schedule.isEvery]

lemma every_persists {exec : Nat → Nat} {s s2 : RunState}
    (h : step exec s = .next s2)
    (he : ∃ t ∈ s.heap, t.task.schedule.isEvery = true) :
    ∃ t ∈ s2.heap, t.task.schedule.isEvery = true := by
  obtain ⟨time, heap, tr⟩ := s
  cases heap with
  | nil => simp at he
  | cons x rest =>
      obtain ⟨t, ht, hte⟩ := he
      by_cases hle : x.dueAt.instant ≤ time
      · rw [step_fire exec time x rest tr hle] at h
        cases h
        rcases List.mem_cons.1 ht with rfl | ht
        · obtain ⟨d, hd⟩ := isEvery_iff.1 hte
          have hr : t.reschedule ⟨time⟩ =
              some ⟨Stbi.add ⟨time⟩ d, ⟨.Every d, t.task.id⟩⟩ := by
            simp [ScheduledTask.reschedule, hd, Schedule.reschedule,
              Schedule.as_duration]
          refine ⟨⟨Stbi.add ⟨time⟩ d, ⟨.Every d, t.task.id⟩⟩, ?_, rfl⟩
          simp only [hr]
          exact mem_heapPush.2 (Or.inl rfl)
        · cases hr : x.reschedule ⟨time⟩ with
          | none => exact ⟨t, by simp only [hr]; exact ht, hte⟩
          | some t2 =>
              exact ⟨t, by simp only [hr]; exact mem_heapPush.2 (Or.inr ht),
                hte⟩
      · rw [step_sleep exec time x rest tr (by omega)] at h
        cases h
        exact ⟨t, ht, hte⟩

lemma every_never_empty {exec : Nat → Nat} (fuel : Nat) :
    ∀ s : RunState, (∃ t ∈ s.heap, t.task.schedule.isEvery = true) →
      ∃ t ∈ (run exec fuel s).heap, t.task.schedule.isEvery = true := by
  induction fuel with
  | zero => intro s he; exact he
  | succ n ih =>
      intro s he
      have hne : s.heap ≠ [] := by
        rintro h0
        rw [h0] at he
        simp at he
      obtain ⟨s2, h2⟩ := step_nonempty_next exec s hne
      rw [run_next n h2]
      exact ih s2 (every_persists h2 he)

/-- Total number of executions a schedule still produces (`Every` never
terminates; it is given weight 1 here only so that every weight is
positive — the termination lemma below excludes it by hypothesis). -/
def Schedule.fires : Schedule → Nat
  | .Once _ => 1
  | .Every _ => 1
  | .Counted c _ => max c 1

/-- Total number of executions the heap still produces. -/
def heapMeasure (h : List ScheduledTask) : Nat :=
  (h.map (fun t => t.task.schedule.fires)).sum

lemma fires_pos (s : Schedule) : 1 ≤ s.fires := by
  cases s <;> simp [Schedule.fires]

lemma heapMeasure_cons (x : ScheduledTask) (xs : List ScheduledTask) :
    heapMeasure (x :: xs) = x.task.schedule.fires + heapMeasure xs := by
  simp [heapMeasure]

lemma heapMeasure_heapPush (h : List ScheduledTask) (x : ScheduledTask) :
    heapMeasure (heapPush h x) = heapMeasure h + x.task.schedule.fires := by
  induction h with
  | nil => simp [heapPush, heapMeasure]
  | cons z zs ih =>
      by_cases hc : x.cmp z = .gt
      · rw [heapPush, if_pos hc, heapMeasure_cons, heapMeasure_cons]
        omega
      · rw [heapPush, if_neg hc, heapMeasure_cons, ih, heapMeasure_cons]
        omega

lemma reschedule_fires_none {s : Schedule} (he : s.isEvery = false)
    (h : s.reschedule = none) : s.fires = 1 := by
  cases s with
  | Once d => rfl
  | Every d => simp [Schedule.isEvery] at he
  | Counted c i =>
      rw [Schedule.reschedule] at h
      by_cases hc : c > 1
      · rw [if_pos hc] at h; exact Option.noConfusion h
      · simp [Schedule.fires]; omega

lemma reschedule_fires_some {s s2 : Schedule} (he : s.isEvery = false)
    (h : s.reschedule = some s2) :
    s2.fires + 1 = s.fires ∧ s2.isEvery = false := by
  cases s with
  | Once d => exact Option.noConfusion h
  | Every d => simp [Schedule.isEvery] at he
  | Counted c i =>
      rw [Schedule.reschedule] at h
      by_cases hc : c > 1
      · rw [if_pos hc] at h
        cases h
        constructor
        · simp [Schedule.fires]; omega
        · rfl
      · rw [if_neg hc] at h; exact Option.noConfusion h

lemma scheduledTask_reschedule_none {t : ScheduledTask} (ref : Stbi)
    (h : t.task.schedule.reschedule = none) : t.reschedule ref = none := by
  simp [ScheduledTask.reschedule, h]

lemma scheduledTask_reschedule_some {t : ScheduledTask} (ref : Stbi)
    {s2 : Schedule} (h : t.task.schedule.reschedule = some s2) :
    t.reschedule ref = some ⟨ref.add s2.as_duration, ⟨s2, t.task.id⟩⟩ := by
  simp [ScheduledTask.reschedule, h]

/-- With no `Every` task in the heap, the run loop empties the heap after
exactly `heapMeasure` executions. -/
lemma noEvery_terminates (exec : Nat → Nat) :
    ∀ (M : Nat) (s : RunState), heapMeasure s.heap ≤ M →
      (∀ t ∈ s.heap, t.task.schedule.isEvery = false) →
      ∃ fuel, (run exec fuel s).heap = [] ∧
        (run exec fuel s).trace.length = s.trace.length + heapMeasure s.heap := by
  intro M
  induction M with
  | zero =>
      intro s hM hno
      cases hh : s.heap with
      | nil => exact ⟨0, by simp [run, hh], by simp [run, hh, heapMeasure]⟩
      | cons x rest =>
          exfalso
          have hp := fires_pos x.task.schedule
          rw [hh, heapMeasure_cons] at hM
          omega
  | succ M ih =>
      intro s hM hno
      obtain ⟨time, heap, tr⟩ := s
      cases heap with
      | nil => exact ⟨0, rfl, by simp [run, heapMeasure]⟩
      | cons x rest =>
          simp only [RunState.heap] at hM hno
          have hnoX : x.task.schedule.isEvery = false := hno x (by simp)
          have hnoRest : ∀ t ∈ rest, t.task.schedule.isEvery = false :=
            fun t ht => hno t (by simp [ht])
          have fire : ∀ (time2 : Nat) (tr2 : List Event),
              x.dueAt.instant ≤ time2 →
              ∃ fuel,
                (run exec fuel ⟨time2, x :: rest, tr2⟩).heap = [] ∧
                (run exec fuel ⟨time2, x :: rest, tr2⟩).trace.length =
                  tr2.length + heapMeasure (x :: rest) := by
            intro time2 tr2 hle
            cases hr : x.task.schedule.reschedule with
            | none =>
                have h1 : x.task.schedule.fires = 1 :=
                  reschedule_fires_none hnoX hr
                have h2 : step exec ⟨time2, x :: rest, tr2⟩ =
                    .next ⟨time2 + exec tr2.length, rest,
                           tr2 ++ [⟨x.task.id, x.dueAt.instant, time2⟩]⟩ := by
                  rw [step_fire exec time2 x rest tr2 hle,
                    scheduledTask_reschedule_none ⟨time2⟩ hr]
                have hm : heapMeasure rest ≤ M := by
                  rw [heapMeasure_cons] at hM
                  omega
                obtain ⟨f, hf1, hf2⟩ := ih
                  ⟨time2 + exec tr2.length, rest,
                   tr2 ++ [⟨x.task.id, x.dueAt.instant, time2⟩]⟩ hm hnoRest
                refine ⟨f + 1, ?_, ?_⟩
                · rw [run_next f h2]; exact hf1
                · rw [run_next f h2, hf2]
                  simp [heapMeasure_cons, h1]
                  omega
            | some s2 =>
                obtain ⟨h1, h1e⟩ := reschedule_fires_some hnoX hr
                have h2 : step exec ⟨time2, x :: rest, tr2⟩ =
                    .next ⟨time2 + exec tr2.length,
                           heapPush rest
                             ⟨Stbi.add ⟨time2⟩ s2.as_duration, ⟨s2, x.task.id⟩⟩,
                           tr2 ++ [⟨x.task.id, x.dueAt.instant, time2⟩]⟩ := by
                  rw [step_fire exec time2 x rest tr2 hle,
                    scheduledTask_reschedule_some ⟨time2⟩ hr]
                have hm : heapMeasure (heapPush rest
                    ⟨Stbi.add ⟨time2⟩ s2.as_duration, ⟨s2, x.task.id⟩⟩) ≤ M := by
                  rw [heapMeasure_heapPush]
                  rw [heapMeasure_cons] at hM
                  simp only [Task.schedule] at *
                  omega
                have hnoPush : ∀ t ∈ heapPush rest
                    ⟨Stbi.add ⟨time2⟩ s2.as_duration, ⟨s2, x.task.id⟩⟩,
                    t.task.schedule.isEvery = false := by
                  intro t ht
                  rcases mem_heapPush.1 ht with rfl | ht
                  · exact h1e
                  · exact hnoRest t ht
                obtain ⟨f, hf1, hf2⟩ := ih
                  ⟨time2 + exec tr2.length,
                   heapPush rest
                     ⟨Stbi.add ⟨time2⟩ s2.as_duration, ⟨s2, x.task.id⟩⟩,
                   tr2 ++ [⟨x.task.id, x.dueAt.instant, time2⟩]⟩ hm hnoPush
                refine ⟨f + 1, ?_, ?_⟩
                · rw [run_next f h2]; exact hf1
                · rw [run_next f h2, hf2]
                  simp [heapMeasure_heapPush, heapMeasure_cons]
                  omega
          by_cases hle : x.dueAt.instant ≤ time
          · exact fire time tr hle
          · obtain ⟨f, hf1, hf2⟩ := fire x.dueAt.instant tr le_rfl
            refine ⟨f + 1, ?_, ?_⟩
            · rw [run_next f (step_sleep exec time x rest tr (by omega))]
              exact hf1
            · rw [run_next f (step_sleep exec time x rest tr (by omega))]
              exact hf2

/-- The single heap entry of a lone `Every(d)` task after `k` executions:
due at `baseline + (k+1)·d`. -/
def everyEntry (b d idn k : Nat) : ScheduledTask :=
  ⟨⟨b + (k + 1) * d⟩, ⟨.Every d, idn⟩⟩

/-- The trace of the first `k` executions of a lone `Every(d)` task when
every execution takes zero time: the i-th (0-based) fires exactly at its due
time `baseline + (i+1)·d`. -/
def everyTrace (b d idn k : Nat) : List Event :=
  (List.range k).map (fun i => ⟨idn, b + (i + 1) * d, b + (i + 1) * d⟩)

lemma every_zero_inv (b d idn : Nat) :
    ∀ (fuel k time : Nat), time ≤ b + (k + 1) * d →
      ∃ k2 time2, time2 ≤ b + (k2 + 1) * d ∧
        run (fun _ => 0) fuel ⟨time, [everyEntry b d idn k], everyTrace b d idn k⟩
          = ⟨time2, [everyEntry b d idn k2], everyTrace b d idn k2⟩ := by
  intro fuel
  induction fuel with
  | zero => intro k time ht; exact ⟨k, time, ht, rfl⟩
  | succ n ih =>
      intro k time ht
      by_cases hlt : time < b + (k + 1) * d
      · have hs : step (fun _ => 0)
            ⟨time, [everyEntry b d idn k], everyTrace b d idn k⟩ =
            .next ⟨b + (k + 1) * d, [everyEntry b d idn k],
                   everyTrace b d idn k⟩ :=
          step_sleep _ time (everyEntry b d idn k) [] (everyTrace b d idn k)
            hlt
        rw [run_next n hs]
        exact ih k (b + (k + 1) * d) le_rfl
      · have heq : time = b + (k + 1) * d := by omega
        subst heq
        have hr : (everyEntry b d idn k).reschedule ⟨b + (k + 1) * d⟩ =
            some (everyEntry b d idn (k + 1)) := by
          simp [everyEntry, ScheduledTask.reschedule, Schedule.reschedule,
            Schedule.as_duration, Stbi.add, Nat.succ_mul]
          ring
        have hs : step (fun _ => 0)
            ⟨b + (k + 1) * d, [everyEntry b d idn k], everyTrace b d idn k⟩ =
            .next ⟨b + (k + 1) * d, [everyEntry b d idn (k + 1)],
                   everyTrace b d idn (k + 1)⟩ := by
          rw [step_fire _ (b + (k + 1) * d) (everyEntry b d idn k) []
            (everyTrace b d idn k) (by simp [everyEntry]), hr]
          simp [heapPush, everyTrace, everyEntry, List.range_succ]
        rw [run_next n hs]
        refine ih (k + 1) (b + (k + 1) * d) ?_
        calc b + (k + 1) * d ≤ b + (k + 1) * d + d := Nat.le_add_right _ _
          _ = b + (k + 1 + 1) * d := by ring

/-- A scheduler built from one task, about to run: the shape shared by the
single-task claims. -/
def singleInit (s : Schedule) (idn : Nat) (now : Stbi) : RunState :=
  (Scheduler.with_tasks now [⟨s, idn⟩]).initState now.instant

/-! ### The claims -/

/-- Claim C3: `Schedule::reschedule` is a pure transition with exactly these
results: `Once(_) ↦ none` (terminal); `Every(i) ↦ some (Every i)` with the
same interval; `Counted(c, i) ↦ some (Counted (c-1) i)` when `c > 1` and
`none` otherwise. -/
theorem c3_reschedule_transition :
    (∀ d, (Schedule.Once d).reschedule = none)
    ∧ (∀ i, (Schedule.Every i).reschedule = some (.Every i))
    ∧ (∀ c i, (Schedule.Counted c i).reschedule =
        if c > 1 then some (.Counted (c - 1) i) else none) :=
  ⟨fun _ => rfl, fun _ => rfl, fun _ _ => rfl⟩

/-- Claim C6: `ScheduledTask::reschedule(reference_time)` consumes the task
and returns `none` exactly when the inner schedule transition is terminal;
otherwise the result holds the new schedule state, the same callable, and
due time `reference_time + new_schedule.as_duration()`. -/
theorem c6_scheduled_task_reschedule :
    ∀ (t : ScheduledTask) (ref : Stbi),
      (t.reschedule ref = none ↔ t.task.schedule.reschedule = none)
      ∧ (∀ s2, t.task.schedule.reschedule = some s2 →
          t.reschedule ref = some ⟨ref.add s2.as_duration, ⟨s2, t.task.id⟩⟩) := by
  intro t ref
  constructor
  · cases h : t.task.schedule.reschedule with
    | none => simp [scheduledTask_reschedule_none ref h, h]
    | some s2 => simp [scheduledTask_reschedule_some ref h, h]
  · intro s2 h
    exact scheduledTask_reschedule_some ref h

/-- Witness for C6: a `Counted(2, 4)` task rescheduled at reference time 10
becomes a `Counted(1, 4)` task due at 14. -/
theorem c6_scheduled_task_reschedule_witness :
    (⟨⟨0⟩, ⟨.Counted 2 4, 9⟩⟩ : ScheduledTask).reschedule ⟨10⟩ =
      some ⟨⟨14⟩, ⟨.Counted 1 4, 9⟩⟩ :=
  (c6_scheduled_task_reschedule ⟨⟨0⟩, ⟨.Counted 2 4, 9⟩⟩ ⟨10⟩).2
    (.Counted 1 4) rfl

/-- Claim C7: a successful `peek` guarantees that the immediately following
`pop` under the same exclusive ownership also succeeds, so the panic branch
of the `expect("Peek returned value")` call in `Scheduler::run` is
unreachable: no loop iteration yields the panic outcome. -/
theorem c7_peek_pop_no_panic :
    (∀ (h : List ScheduledTask) (x : ScheduledTask),
        heapPeek h = some x → heapPop h = some (x, h.tail))
    ∧ (∀ (exec : Nat → Nat) (s : RunState), step exec s ≠ .panicked) := by
  constructor
  · intro h x hp
    cases h with
    | nil => exact Option.noConfusion hp
    | cons z zs =>
        have hz : z = x := by simpa [heapPeek] using hp
        subst hz
        rfl
  · exact step_ne_panicked

/-- Witness for C7 on a concrete two-element heap. -/
theorem c7_peek_pop_no_panic_witness :
    heapPop [(⟨⟨1⟩, ⟨.Once none, 0⟩⟩ : ScheduledTask), ⟨⟨5⟩, ⟨.Every 2, 1⟩⟩]
      = some (⟨⟨1⟩, ⟨.Once none, 0⟩⟩,
              [(⟨⟨5⟩, ⟨.Every 2, 1⟩⟩ : ScheduledTask)]) :=
  c7_peek_pop_no_panic.1 _ _ rfl

/-- Claim C8: `Stbi::since(earlier)` is total and saturating: when `earlier`
is at or before `self` it returns the exact duration from `earlier` to
`self`, and when `self` is not strictly later than `earlier` it returns the
zero duration rather than underflowing or faulting. -/
theorem c8_since_saturates :
    ∀ a b : Stbi,
      (b.instant ≤ a.instant → b.instant + a.since b = a.instant)
      ∧ (a.instant ≤ b.instant → a.since b = 0) := by
  intro a b
  constructor <;> intro h <;> simp [Stbi.since] <;> omega

/-- Witness for C8: exact difference at `7 - 3` and saturation at `3 - 7`. -/
theorem c8_since_saturates_witness :
    3 + (⟨7⟩ : Stbi).since ⟨3⟩ = 7 ∧ (⟨3⟩ : Stbi).since ⟨7⟩ = 0 :=
  ⟨(c8_since_saturates ⟨7⟩ ⟨3⟩).1 (by decide),
   (c8_since_saturates ⟨3⟩ ⟨7⟩).2 (by decide)⟩

/-- Claim C9, counterexample: `as_duration` also returns zero for
`Every(ZERO)`, which is not `Once(None)`, so "zero only for `Once(None)`"
fails as stated. -/
theorem c9_as_duration_zero_counterexample :
    (Schedule.Every 0).as_duration = 0
    ∧ Schedule.Every 0 ≠ Schedule.Once none :=
  ⟨rfl, by decide⟩

/-- Claim C9, amended: `as_duration` maps `Once(None) ↦ 0`, `Once(Some d) ↦
d`, `Every(i) ↦ i`, `Counted(_, i) ↦ i`; it is zero exactly when the stored
duration is zero or absent: for `Once(None)`, `Once(Some(ZERO))`,
`Every(ZERO)` and `Counted(_, ZERO)` — `Once(None)` is the only variant
whose wait is necessarily zero, but not the only schedule with zero wait. -/
theorem c9_as_duration_amended :
    ((Schedule.Once none).as_duration = 0)
    ∧ (∀ d, (Schedule.Once (some d)).as_duration = d)
    ∧ (∀ i, (Schedule.Every i).as_duration = i)
    ∧ (∀ c i, (Schedule.Counted c i).as_duration = i)
    ∧ (∀ s : Schedule, s.as_duration = 0 ↔
        s = .Once none ∨ s = .Once (some 0) ∨ s = .Every 0
          ∨ ∃ c, s = .Counted c 0) := by
  refine ⟨rfl, fun _ => rfl, fun _ => rfl, fun _ _ => rfl, ?_⟩
  intro s
  cases s with
  | Once o => cases o <;> simp [Schedule.as_duration]
  | Every i => simp [Schedule.as_duration]
  | Counted c i => simp [Schedule.as_duration]

/-- Claim C1, counterexample: one `Every(1)` task whose callable takes 2 time
units per execution; the recorded due times of the first three executions
are 1, 2, 4 — the third is not `baseline + 3·1 = 3`.  Due times do depend on
how long prior executions took, because `Scheduler::run` passes the loop-top
clock reading `now` (which can already be past the due time) to
`reschedule`, not the previous due time. -/
theorem c1_every_drift_counterexample :
    ((run (fun _ => 2) 4 (singleInit (.Every 1) 0 ⟨0⟩)).trace.map Event.due
      = [1, 2, 4])
    ∧ (4 : Nat) ≠ 0 + 3 * 1 := by
  constructor
  · rfl
  · decide

/-- Claim C1, amended: every reschedule of an `Every(d)` task sets the next
due time to `now + d`, where `now` is the clock reading captured at the top
of the loop iteration, before the callable is invoked — never a
completion-side reading, but also not the previous due time.  When every
execution takes zero time, the loop always fires exactly at the due time, so
`now` coincides with the previous due time and the n-th execution of a lone
`Every(d)` task is due (and fires) exactly at `baseline + n·d`. -/
theorem c1_every_due_times_amended :
    (∀ (t : ScheduledTask) (d : Nat) (ref : Stbi),
        t.task.schedule = .Every d →
        t.reschedule ref = some ⟨ref.add d, ⟨.Every d, t.task.id⟩⟩)
    ∧ (∀ b d idn fuel, ∃ k,
        (run (fun _ => 0) fuel (singleInit (.Every d) idn ⟨b⟩)).trace
          = (List.range k).map
              (fun i => ⟨idn, b + (i + 1) * d, b + (i + 1) * d⟩)) := by
  constructor
  · intro t d ref ht
    exact scheduledTask_reschedule_some ref (by rw [ht]; rfl)
  · intro b d idn fuel
    have hinit : singleInit (.Every d) idn ⟨b⟩ =
        ⟨b, [everyEntry b d idn 0], everyTrace b d idn 0⟩ := by
      simp [singleInit, Scheduler.with_tasks, Scheduler.initState, heapPush,
        Stbi.add, Schedule.as_duration, everyEntry, everyTrace]
    rw [hinit]
    obtain ⟨k2, time2, _, hrun⟩ :=
      every_zero_inv b d idn fuel 0 b (by omega)
    rw [hrun]
    exact ⟨k2, rfl⟩

/-- Witness for C1's amended theorem: an `Every(5)` task rescheduled at
reference time 7 is next due at 12. -/
theorem c1_every_due_times_amended_witness :
    (⟨⟨4⟩, ⟨.Every 5, 3⟩⟩ : ScheduledTask).reschedule ⟨7⟩ =
      some ⟨⟨12⟩, ⟨.Every 5, 3⟩⟩ :=
  c1_every_due_times_amended.1 ⟨⟨4⟩, ⟨.Every 5, 3⟩⟩ 5 ⟨7⟩ rfl

/-- Claim C2: the reversed `Ord` on `Stbi` composed with the due-time-only
`Ord` on `ScheduledTask` ranks the strictly earlier due time as the greater
element, so the max-heap's maximum is the chronologically smallest due time;
the heap built by `with_tasks` satisfies the order invariant, every `run`
step (push and pop included) preserves it, and under it the extractable
element returned by `peek` — which `pop` then removes — has the earliest due
time among all currently enqueued entries. -/
theorem c2_heap_exposes_earliest_due :
    (∀ a b : Stbi, (Stbi.cmp a b = .gt ↔ a.instant < b.instant)
        ∧ (Stbi.cmp a b = .lt ↔ b.instant < a.instant))
    ∧ (∀ a b : ScheduledTask,
        ScheduledTask.cmp a b = Stbi.cmp a.dueAt b.dueAt)
    ∧ (∀ (now : Stbi) (tasks : List Task),
        heapOrdered (Scheduler.with_tasks now tasks).schedule)
    ∧ (∀ (exec : Nat → Nat) (s s2 : RunState), heapOrdered s.heap →
        step exec s = .next s2 → heapOrdered s2.heap)
    ∧ (∀ (exec : Nat → Nat) (fuel : Nat) (s : RunState), heapOrdered s.heap →
        heapOrdered (run exec fuel s).heap)
    ∧ (∀ (h : List ScheduledTask) (x : ScheduledTask), heapOrdered h →
        heapPeek h = some x →
        (∀ y ∈ h, x.dueAt.instant ≤ y.dueAt.instant)
          ∧ heapPop h = some (x, h.tail)) := by
  refine ⟨fun a b => ⟨stbi_cmp_gt_iff a b, stbi_cmp_lt_iff a b⟩,
    fun a b => rfl, heapOrdered_with_tasks,
    fun exec s s2 hs h => heapOrdered_step hs h,
    fun exec fuel s hs => heapOrdered_run fuel s hs, ?_⟩
  intro h x hord hpk
  cases h with
  | nil => exact Option.noConfusion hpk
  | cons z zs =>
      have hz : z = x := by simpa [heapPeek] using hpk
      subst hz
      exact ⟨heapOrdered_head_min hord, rfl⟩

/-- Witness for C2 on a concrete ordered two-element heap: `peek` returns
the entry due at 1, which is at or before the due time of every entry. -/
theorem c2_heap_exposes_earliest_due_witness :
    (∀ y ∈ [(⟨⟨1⟩, ⟨.Once none, 0⟩⟩ : ScheduledTask), ⟨⟨5⟩, ⟨.Every 2, 1⟩⟩],
        (1 : Nat) ≤ y.dueAt.instant)
    ∧ heapPop [(⟨⟨1⟩, ⟨.Once none, 0⟩⟩ : ScheduledTask), ⟨⟨5⟩, ⟨.Every 2, 1⟩⟩]
        = some (⟨⟨1⟩, ⟨.Once none, 0⟩⟩,
                [(⟨⟨5⟩, ⟨.Every 2, 1⟩⟩ : ScheduledTask)]) :=
  c2_heap_exposes_earliest_due.2.2.2.2.2
    [⟨⟨1⟩, ⟨.Once none, 0⟩⟩, ⟨⟨5⟩, ⟨.Every 2, 1⟩⟩]
    ⟨⟨1⟩, ⟨.Once none, 0⟩⟩ (by decide) rfl

/-- Claim C4: for `c ≥ 1`, iterating `Schedule::reschedule` from `Counted(c,
i)` produces exactly `c - 1` consecutive non-terminal states — after `k`
steps the state is `Counted(c-k, i)` — followed by a terminal result; and a
scheduler running that single task halts with an empty queue after exactly
`c` recorded executions, never to fire it again. -/
theorem c4_counted_executes_count_times :
    ∀ c i : Nat, 1 ≤ c →
      ((∀ k, k < c →
          schedIter (.Counted c i) k = some (.Counted (c - k) i))
        ∧ schedIter (.Counted c i) c = none)
      ∧ (∀ (exec : Nat → Nat) (idn : Nat) (now : Stbi), ∃ fuel,
          (run exec fuel (singleInit (.Counted c i) idn now)).heap = []
          ∧ (run exec fuel (singleInit (.Counted c i) idn now)).trace.length
              = c
          ∧ step exec (run exec fuel (singleInit (.Counted c i) idn now))
              = .done) := by
  intro c i hc
  have hiter : ∀ k, k < c →
      schedIter (.Counted c i) k = some (.Counted (c - k) i) := by
    intro k
    induction k with
    | zero => intro _; rfl
    | succ k ih =>
        intro hk
        rw [schedIter, ih (by omega), Option.some_bind]
        show Schedule.reschedule (.Counted (c - k) i)
          = some (.Counted (c - (k + 1)) i)
        rw [Schedule.reschedule, if_pos (by omega : c - k > 1)]
        have hsub : c - k - 1 = c - (k + 1) := by omega
        rw [hsub]
  constructor
  · refine ⟨hiter, ?_⟩
    have h1 : schedIter (.Counted c i) (c - 1) = some (.Counted 1 i) := by
      rw [hiter (c - 1) (by omega)]
      congr 2
      omega
    have hsum : c = (c - 1) + 1 := by omega
    rw [hsum, schedIter, ← hsum, h1, Option.some_bind]
    rfl
  · intro exec idn now
    have hno : ∀ t ∈ (singleInit (.Counted c i) idn now).heap,
        t.task.schedule.isEvery = false := by
      intro t ht
      simp [singleInit, Scheduler.with_tasks, Scheduler.initState,
        heapPush] at ht
      simp [ht, Schedule.isEvery]
    obtain ⟨f, h1, h2⟩ := noEvery_terminates exec
      (heapMeasure (singleInit (.Counted c i) idn now).heap)
      (singleInit (.Counted c i) idn now) le_rfl hno
    refine ⟨f, h1, ?_, step_empty exec _ h1⟩
    rw [h2]
    simp [singleInit, Scheduler.with_tasks, Scheduler.initState, heapPush,
      heapMeasure, Schedule.fires]
    omega

/-- Witness for C4 at `Counted(3, 2)`: the running part instantiated with a
concrete execution-time oracle, callable identity and baseline. -/
theorem c4_counted_executes_count_times_witness :
    ∃ fuel,
      (run (fun _ => 1) fuel (singleInit (.Counted 3 2) 0 ⟨5⟩)).heap = []
      ∧ (run (fun _ => 1) fuel (singleInit (.Counted 3 2) 0 ⟨5⟩)).trace.length
          = 3
      ∧ step (fun _ => 1) (run (fun _ => 1) fuel
          (singleInit (.Counted 3 2) 0 ⟨5⟩)) = .done :=
  (c4_counted_executes_count_times 3 2 (by decide)).2 (fun _ => 1) 0 ⟨5⟩

/-- Claim C5: the run loop returns exactly when the queue is empty; a loop
step starting from a queue containing an `Every` task always leaves a queue
containing an `Every` task (the pop is followed by the push of its
rescheduled successor), so with any `Every` task enqueued the loop never
returns; and with no `Every` task enqueued every `Once`/`Counted` task
exhausts and the queue eventually empties. -/
theorem c5_termination_law :
    (∀ (exec : Nat → Nat) (s : RunState), step exec s = .done ↔ s.heap = [])
    ∧ (∀ (exec : Nat → Nat) (s s2 : RunState), step exec s = .next s2 →
        (∃ t ∈ s.heap, t.task.schedule.isEvery = true) →
        ∃ t ∈ s2.heap, t.task.schedule.isEvery = true)
    ∧ (∀ (exec : Nat → Nat) (s : RunState),
        (∃ t ∈ s.heap, t.task.schedule.isEvery = true) →
        ∀ fuel, (run exec fuel s).heap ≠ []
          ∧ step exec (run exec fuel s) ≠ .done)
    ∧ (∀ (exec : Nat → Nat) (s : RunState),
        (∀ t ∈ s.heap, t.task.schedule.isEvery = false) →
        ∃ fuel, (run exec fuel s).heap = []
          ∧ step exec (run exec fuel s) = .done) := by
  refine ⟨step_done_iff, fun exec s s2 h he => every_persists h he, ?_, ?_⟩
  · intro exec s he fuel
    obtain ⟨t, ht, _⟩ := every_never_empty fuel s he
    have hne : (run exec fuel s).heap ≠ [] := by
      intro h0
      rw [h0] at ht
      exact List.not_mem_nil t ht
    exact ⟨hne, fun hd => hne ((step_done_iff exec _).1 hd)⟩
  · intro exec s hno
    obtain ⟨f, h1, _⟩ := noEvery_terminates exec (heapMeasure s.heap) s
      le_rfl hno
    exact ⟨f, h1, (step_done_iff exec _).2 h1⟩

/-- Witness for C5: a queue holding one `Every(1)` task is still non-empty
after 5 loop iterations and the loop has not returned. -/
theorem c5_termination_law_witness :
    (run (fun _ => 0) 5 ⟨0, [⟨⟨1⟩, ⟨.Every 1, 0⟩⟩], []⟩).heap ≠ []
    ∧ step (fun _ => 0) (run (fun _ => 0) 5 ⟨0, [⟨⟨1⟩, ⟨.Every 1, 0⟩⟩], []⟩)
        ≠ .done :=
  c5_termination_law.2.2.1 (fun _ => 0) ⟨0, [⟨⟨1⟩, ⟨.Every 1, 0⟩⟩], []⟩
    ⟨⟨⟨1⟩, ⟨.Every 1, 0⟩⟩, by decide, rfl⟩ 5

/-- Claim C10: `Counted(0, i)` reschedules to `none` exactly like
`Counted(1, i)`; `with_tasks` still enqueues the count-0 task, due at
`baseline + i`, and running it executes it exactly once before the queue
empties — the total number of executions is `max(count, 1)`, not `count`. -/
theorem c10_counted_zero_executes_once :
    ∀ (i idn : Nat) (now : Stbi) (exec : Nat → Nat),
      (Schedule.Counted 0 i).reschedule = none
      ∧ (Schedule.Counted 1 i).reschedule = none
      ∧ (Scheduler.with_tasks now [⟨.Counted 0 i, idn⟩]).schedule
          = [⟨now.add i, ⟨.Counted 0 i, idn⟩⟩]
      ∧ ∃ fuel,
          (run exec fuel (singleInit (.Counted 0 i) idn now)).heap = []
          ∧ (run exec fuel (singleInit (.Counted 0 i) idn now)).trace.length
              = Nat.max 0 1 := by
  intro i idn now exec
  refine ⟨rfl, rfl, rfl, ?_⟩
  have hno : ∀ t ∈ (singleInit (.Counted 0 i) idn now).heap,
      t.task.schedule.isEvery = false := by
    intro t ht
    simp [singleInit, Scheduler.with_tasks, Scheduler.initState,
      heapPush] at ht
    simp [ht, Schedule.isEvery]
  obtain ⟨f, h1, h2⟩ := noEvery_terminates exec
    (heapMeasure (singleInit (.Counted 0 i) idn now).heap)
    (singleInit (.Counted 0 i) idn now) le_rfl hno
  refine ⟨f, h1, ?_⟩
  rw [h2]
  simp [singleInit, Scheduler.with_tasks, Scheduler.initState, heapPush,
    heapMeasure, Schedule.fires]

end Casched
